import Mathlib

/-!
Verification development for the pinecone serialization library.

This file gives a shallow embedding of the pinecone wire format engine:
the error taxonomy (src/src/error.rs), the output sinks (src/src/ser/output.rs),
the public entry points to_vec, to_slice (src/src/ser/mod.rs) and from_bytes,
take_from_bytes (src/src/de/mod.rs).  The varint codec and the per-shape
serializer and deserializer bodies are not part of the provided sources
(src/src/varint.rs, src/src/ser/serializer.rs and src/src/de/deserializer.rs
are absent); those definitions are modelled from the specification, as noted
in their doc comments.  Bytes are modelled as natural numbers below 256,
byte buffers as lists of naturals, and the platform usize as a 64-bit integer.
-/

namespace Pinecone

/-- Error type, translated from the enum Error in src/src/error.rs. -/
inductive Error where
  | WontImplement
  | SerializeBufferFull
  | SerializeLengthUnknown
  | DeserializeUnexpectedEnd
  | DeserializeBadVarint
  | DeserializeBadBool
  | DeserializeBadChar
  | DeserializeBadUtf8
  | DeserializeBadOption
  | DeserializeBadEnum
  | DeserializeBadEncoding
  | SerdeSerCustom (msg : String)
  | SerdeDeCustom (msg : String)
deriving DecidableEq, Repr

/-- Modelled from the spec: the maximum number of varint groups for the
64-bit platform usize (spec 3, 4.1: 10 bytes for 64-bit widths).
The original code for this lives in the missing src/src/varint.rs. -/
def varint_usize_max : Nat := 10

/-- Modelled from the spec: varint encoding (spec 4.1), little-endian
base-128 groups; the low 7 bits of each byte hold a group and the high bit
is set while further nonzero groups remain.  Value 0 encodes as a single
zero byte.  The original code for this lives in the missing src/src/varint.rs. -/
def varintEncode (n : Nat) : List Nat :=
  if h : n < 128 then [n]
  else (n % 128 + 128) :: varintEncode (n / 128)
termination_by n
decreasing_by
  exact Nat.div_lt_self (by omega) (by omega)

/-- Modelled from the spec: varint decoding (spec 4.1, 4.4), reading bytes
while the continuation bit is set, failing with DeserializeBadVarint when
the input is exhausted before a terminating byte, or when the group count
would exceed the platform maximum.  The fuel argument counts the groups
still allowed.  The original code lives in the missing src/src/varint.rs
and src/src/de/deserializer.rs. -/
def takeVarintAux : Nat → List Nat → Except Error (Nat × List Nat)
  | _, [] => .error .DeserializeBadVarint
  | 0, _ :: _ => .error .DeserializeBadVarint
  | fuel + 1, b :: rest =>
    if b < 128 then .ok (b, rest)
    else
      match takeVarintAux fuel rest with
      | .ok (v, r) => .ok (b % 128 + 128 * v, r)
      | .error e => .error e

/-- Modelled from the spec: varint decoding entry point with the platform
group bound. -/
def takeVarint (input : List Nat) : Except Error (Nat × List Nat) :=
  takeVarintAux varint_usize_max input

theorem varintEncode_lt (n : Nat) (h : n < 128) : varintEncode n = [n] := by
  rw [varintEncode]
  simp [h]

theorem varintEncode_ge (n : Nat) (h : ¬ n < 128) :
    varintEncode n = (n % 128 + 128) :: varintEncode (n / 128) := by
  rw [varintEncode]
  simp [h]

theorem varintEncode_length_le :
    ∀ (k n : Nat), n < 128 ^ (k + 1) → (varintEncode n).length ≤ k + 1 := by
  intro k
  induction k with
  | zero =>
    intro n hn
    rw [varintEncode_lt n (by simpa using hn)]
    simp
  | succ k ih =>
    intro n hn
    by_cases h : n < 128
    · rw [varintEncode_lt n h]
      simp
    · rw [varintEncode_ge n h]
      have hdiv : n / 128 < 128 ^ (k + 1) := by
        apply Nat.div_lt_of_lt_mul
        calc n < 128 ^ (k + 1 + 1) := hn
        _ = 128 * 128 ^ (k + 1) := by ring
      have := ih (n / 128) hdiv
      simpa using this

theorem takeVarintAux_encode :
    ∀ (fuel n : Nat) (rest : List Nat),
      (varintEncode n).length ≤ fuel →
      takeVarintAux fuel (varintEncode n ++ rest) = .ok (n, rest) := by
  intro fuel
  induction fuel with
  | zero =>
    intro n rest hlen
    by_cases h : n < 128
    · rw [varintEncode_lt n h] at hlen
      simp at hlen
    · rw [varintEncode_ge n h] at hlen
      simp at hlen
  | succ fuel ih =>
    intro n rest hlen
    by_cases h : n < 128
    · rw [varintEncode_lt n h]
      simp [takeVarintAux, h]
    · rw [varintEncode_ge n h] at hlen ⊢
      have hb : ¬ (n % 128 + 128 < 128) := by omega
      have hlen2 : (varintEncode (n / 128)).length ≤ fuel := by
        simpa using hlen
      have hrec := ih (n / 128) rest hlen2
      simp only [List.cons_append, takeVarintAux, if_neg hb, List.append_eq, hrec]
      have hm : (n % 128 + 128) % 128 = n % 128 := by omega
      rw [hm, Nat.mod_add_div n 128]

theorem takeVarint_encode (n : Nat) (rest : List Nat) (h : n < 2 ^ 64) :
    takeVarint (varintEncode n ++ rest) = .ok (n, rest) := by
  apply takeVarintAux_encode
  have : n < 128 ^ 10 := by
    calc n < 2 ^ 64 := h
    _ ≤ 128 ^ 10 := by norm_num
  exact varintEncode_length_le 9 n this

theorem takeVarintAux_continuation :
    ∀ (fuel : Nat) (input : List Nat), (∀ b ∈ input, 128 ≤ b) →
      takeVarintAux fuel input = .error .DeserializeBadVarint := by
  intro fuel
  induction fuel with
  | zero =>
    intro input _
    cases input <;> rfl
  | succ fuel ih =>
    intro input hall
    cases input with
    | nil => rfl
    | cons b rest =>
      have hb : 128 ≤ b := hall b (by simp)
      have hrest : ∀ x ∈ rest, 128 ≤ x := by
        intro x hx
        exact hall x (by simp [hx])
      simp only [takeVarintAux, if_neg (by omega : ¬ b < 128), ih rest hrest]

/-- Modelled from the spec: little-endian fixed-width encoding of an
unsigned integer into exactly w bytes (spec 4.3, fixed-width numerics).
Lives in the missing src/src/ser/serializer.rs. -/
def uleBytes : Nat → Nat → List Nat
  | 0, _ => []
  | w + 1, n => n % 256 :: uleBytes w (n / 256)

/-- Modelled from the spec: little-endian reassembly of a byte list into
an unsigned integer (spec 4.4).  Lives in the missing
src/src/de/deserializer.rs. -/
def leVal : List Nat → Nat
  | [] => 0
  | b :: rest => b + 256 * leVal rest

theorem uleBytes_length : ∀ (w n : Nat), (uleBytes w n).length = w := by
  intro w
  induction w with
  | zero => intro n; rfl
  | succ w ih => intro n; simp [uleBytes, ih]

theorem leVal_uleBytes : ∀ (w n : Nat), n < 256 ^ w → leVal (uleBytes w n) = n := by
  intro w
  induction w with
  | zero =>
    intro n hn
    simp at hn
    simp [hn, uleBytes, leVal]
  | succ w ih =>
    intro n hn
    have hdiv : n / 256 < 256 ^ w := by
      apply Nat.div_lt_of_lt_mul
      calc n < 256 ^ (w + 1) := hn
      _ = 256 * 256 ^ w := by ring
    simp only [uleBytes, leVal, ih (n / 256) hdiv]
    omega

/-- Modelled from the spec: reading exactly n bytes from the front of the
input, failing with DeserializeUnexpectedEnd when fewer remain (spec 4.4).
Lives in the missing src/src/de/deserializer.rs. -/
def takeN (n : Nat) (input : List Nat) : Except Error (List Nat × List Nat) :=
  if input.length < n then .error .DeserializeUnexpectedEnd
  else .ok (input.take n, input.drop n)

theorem takeN_append (bs rest : List Nat) :
    takeN bs.length (bs ++ rest) = .ok (bs, rest) := by
  unfold takeN
  rw [if_neg (by simp)]
  rw [List.take_left, List.drop_left]

/-- Continuation byte test for the UTF-8 validator. -/
def utf8Cont (b : Nat) : Bool := 128 ≤ b && b < 192

/-- Modelled from the spec: strict UTF-8 validity of a byte list (spec 4.4,
the decoded Str byte range must be valid UTF-8, else DeserializeBadUtf8).
Overlong encodings, surrogate code points and values above 0x10FFFF are
rejected.  The corresponding check lives in the missing
src/src/de/deserializer.rs. -/
def utf8Valid : List Nat → Bool
  | [] => true
  | b :: rest =>
    if b < 128 then utf8Valid rest
    else if b < 194 then false
    else if b < 224 then
      match rest with
      | b1 :: r => utf8Cont b1 && utf8Valid r
      | [] => false
    else if b = 224 then
      match rest with
      | b1 :: b2 :: r => (160 ≤ b1 && b1 < 192) && utf8Cont b2 && utf8Valid r
      | _ => false
    else if b < 237 then
      match rest with
      | b1 :: b2 :: r => utf8Cont b1 && utf8Cont b2 && utf8Valid r
      | _ => false
    else if b = 237 then
      match rest with
      | b1 :: b2 :: r => (128 ≤ b1 && b1 < 160) && utf8Cont b2 && utf8Valid r
      | _ => false
    else if b < 240 then
      match rest with
      | b1 :: b2 :: r => utf8Cont b1 && utf8Cont b2 && utf8Valid r
      | _ => false
    else if b = 240 then
      match rest with
      | b1 :: b2 :: b3 :: r =>
        (144 ≤ b1 && b1 < 192) && utf8Cont b2 && utf8Cont b3 && utf8Valid r
      | _ => false
    else if b < 244 then
      match rest with
      | b1 :: b2 :: b3 :: r =>
        utf8Cont b1 && utf8Cont b2 && utf8Cont b3 && utf8Valid r
      | _ => false
    else if b = 244 then
      match rest with
      | b1 :: b2 :: b3 :: r =>
        (128 ≤ b1 && b1 < 144) && utf8Cont b2 && utf8Cont b3 && utf8Valid r
      | _ => false
    else false

/-- Unicode scalar value test: below 0x110000 and not a surrogate
(spec 4.4, DeserializeBadChar). -/
def validChar (c : Nat) : Bool :=
  (c < 55296 || (57343 < c && c < 1114112))

/-- Byte range test for a buffer modelled as a list of naturals. -/
def allBytes (bs : List Nat) : Bool := bs.all (fun b => b < 256)

/-- Modelled from the spec: the closed set of wire shapes (spec 3, the
Shape protocol role).  Fixed-arity composites (tuples, arrays, tuple
structs, named structs) are all tuple-shaped on the wire; a newtype struct
is the shape of its inner value; an enum carries one payload shape per
variant in declaration order. -/
inductive Shape where
  | unit
  | bool
  | u8
  | u16
  | u32
  | u64
  | char
  | str
  | bytes
  | option (s : Shape)
  | seq (s : Shape)
  | tuple (ss : List Shape)
  | map (ks vs : Shape)
  | enum (ss : List Shape)

/-- Modelled from the spec: values of the supported shapes (spec 3).
Integers are unsigned naturals of the stated width; a string is carried as
its UTF-8 byte list; an enum value is its zero-based variant index plus
payload value. -/
inductive Value where
  | unit
  | bool (b : Bool)
  | u8 (n : Nat)
  | u16 (n : Nat)
  | u32 (n : Nat)
  | u64 (n : Nat)
  | char (c : Nat)
  | str (bs : List Nat)
  | bytes (bs : List Nat)
  | option (o : Option Value)
  | seq (vs : List Value)
  | tuple (vs : List Value)
  | map (kvs : List (Value × Value))
  | enum (i : Nat) (p : Value)

theorem shapeSizeOf_pos (s : Shape) : 0 < sizeOf s := by
  cases s <;> simp_arith

theorem valueSizeOf_pos (v : Value) : 0 < sizeOf v := by
  cases v <;> simp_arith

mutual

/-- Modelled from the spec: the per-shape encoding rules (spec 4.3 and the
wire-format table in spec 6).  The original code lives in the missing
src/src/ser/serializer.rs. -/
def encode : Value → List Nat
  | .unit => []
  | .bool b => [if b then 1 else 0]
  | .u8 n => [n]
  | .u16 n => uleBytes 2 n
  | .u32 n => uleBytes 4 n
  | .u64 n => uleBytes 8 n
  | .char c => uleBytes 4 c
  | .str bs => varintEncode bs.length ++ bs
  | .bytes bs => varintEncode bs.length ++ bs
  | .option .none => [0]
  | .option (.some v) => 1 :: encode v
  | .seq vs => varintEncode vs.length ++ encodeList vs
  | .tuple vs => encodeList vs
  | .map kvs => varintEncode kvs.length ++ encodePairs kvs
  | .enum i p => varintEncode i ++ encode p
termination_by v => sizeOf v
decreasing_by all_goals (simp_wf <;> omega)

/-- Concatenated encodings of a list of values, in order. -/
def encodeList : List Value → List Nat
  | [] => []
  | v :: vs => encode v ++ encodeList vs
termination_by vs => sizeOf vs
decreasing_by all_goals (simp_wf <;> omega)

/-- Concatenated encodings of key and value pairs, in order. -/
def encodePairs : List (Value × Value) → List Nat
  | [] => []
  | (k, v) :: kvs => encode k ++ encode v ++ encodePairs kvs
termination_by kvs => sizeOf kvs
decreasing_by all_goals (simp_wf <;> omega)

end

mutual

/-- Conformance of a value to a shape, including the side conditions a
value representable in the source language satisfies: integers within
their width, chars are Unicode scalar values, strings are valid UTF-8,
byte and element counts fit the 64-bit platform usize, enum discriminants
fit 32 bits (spec 3, 4.4) and name an existing variant. -/
def hasShape : Value → Shape → Bool
  | .unit, .unit => true
  | .bool _, .bool => true
  | .u8 n, .u8 => decide (n < 256)
  | .u16 n, .u16 => decide (n < 65536)
  | .u32 n, .u32 => decide (n < 4294967296)
  | .u64 n, .u64 => decide (n < 18446744073709551616)
  | .char c, .char => validChar c
  | .str bs, .str =>
    decide (bs.length < 18446744073709551616) && allBytes bs && utf8Valid bs
  | .bytes bs, .bytes =>
    decide (bs.length < 18446744073709551616) && allBytes bs
  | .option .none, .option _ => true
  | .option (.some v), .option s => hasShape v s
  | .seq vs, .seq s =>
    decide (vs.length < 18446744073709551616) && hasShapeSeq vs s
  | .tuple vs, .tuple ss => hasShapeTuple vs ss
  | .map kvs, .map ks vs =>
    decide (kvs.length < 18446744073709551616) && hasShapePairs kvs ks vs
  | .enum i p, .enum ss =>
    decide (i < 4294967296) &&
      (match ss[i]? with
       | some s => hasShape p s
       | none => false)
  | _, _ => false
termination_by v _ => sizeOf v
decreasing_by all_goals (simp_wf <;> omega)

/-- Conformance of every element of a list to one element shape. -/
def hasShapeSeq : List Value → Shape → Bool
  | [], _ => true
  | v :: vs, s => hasShape v s && hasShapeSeq vs s
termination_by vs _ => sizeOf vs
decreasing_by all_goals (simp_wf <;> omega)

/-- Pointwise conformance of a value list to a shape list of the same
length. -/
def hasShapeTuple : List Value → List Shape → Bool
  | [], [] => true
  | v :: vs, s :: ss => hasShape v s && hasShapeTuple vs ss
  | _, _ => false
termination_by vs _ => sizeOf vs
decreasing_by all_goals (simp_wf <;> omega)

/-- Conformance of every key and value of a pair list to the key and value
shapes. -/
def hasShapePairs : List (Value × Value) → Shape → Shape → Bool
  | [], _, _ => true
  | (k, v) :: kvs, ks, vs => hasShape k ks && hasShape v vs && hasShapePairs kvs ks vs
termination_by kvs _ _ => sizeOf kvs
decreasing_by all_goals (simp_wf <;> omega)

end

mutual

/-- Modelled from the spec: the shape-driven decoder (spec 4.4), mirroring
the encoder byte layout and validating value domains, never reading past
the remaining input.  The original code lives in the missing
src/src/de/deserializer.rs. -/
def decode : Shape → List Nat → Except Error (Value × List Nat)
  | .unit, input => .ok (.unit, input)
  | .bool, [] => .error .DeserializeUnexpectedEnd
  | .bool, b :: rest =>
    if b = 0 then .ok (.bool false, rest)
    else if b = 1 then .ok (.bool true, rest)
    else .error .DeserializeBadBool
  | .u8, [] => .error .DeserializeUnexpectedEnd
  | .u8, b :: rest => .ok (.u8 b, rest)
  | .u16, input =>
    match takeN 2 input with
    | .ok (bs, rest) => .ok (.u16 (leVal bs), rest)
    | .error e => .error e
  | .u32, input =>
    match takeN 4 input with
    | .ok (bs, rest) => .ok (.u32 (leVal bs), rest)
    | .error e => .error e
  | .u64, input =>
    match takeN 8 input with
    | .ok (bs, rest) => .ok (.u64 (leVal bs), rest)
    | .error e => .error e
  | .char, input =>
    match takeN 4 input with
    | .ok (bs, rest) =>
      if validChar (leVal bs) then .ok (.char (leVal bs), rest)
      else .error .DeserializeBadChar
    | .error e => .error e
  | .str, input =>
    match takeVarint input with
    | .ok (n, r) =>
      match takeN n r with
      | .ok (bs, r2) =>
        if utf8Valid bs then .ok (.str bs, r2) else .error .DeserializeBadUtf8
      | .error e => .error e
    | .error e => .error e
  | .bytes, input =>
    match takeVarint input with
    | .ok (n, r) =>
      match takeN n r with
      | .ok (bs, r2) => .ok (.bytes bs, r2)
      | .error e => .error e
    | .error e => .error e
  | .option _, [] => .error .DeserializeUnexpectedEnd
  | .option s, b :: rest =>
    if b = 0 then .ok (.option .none, rest)
    else if b = 1 then
      match decode s rest with
      | .ok (v, r) => .ok (.option (.some v), r)
      | .error e => .error e
    else .error .DeserializeBadOption
  | .seq s, input =>
    match takeVarint input with
    | .ok (n, r) =>
      match decodeMany s n r with
      | .ok (vl, r2) => .ok (.seq vl, r2)
      | .error e => .error e
    | .error e => .error e
  | .tuple ss, input =>
    match decodeTuple ss input with
    | .ok (vl, r) => .ok (.tuple vl, r)
    | .error e => .error e
  | .map ks vs, input =>
    match takeVarint input with
    | .ok (n, r) =>
      match decodePairs ks vs n r with
      | .ok (kvl, r2) => .ok (.map kvl, r2)
      | .error e => .error e
    | .error e => .error e
  | .enum ss, input =>
    match takeVarint input with
    | .ok (d, r) =>
      if d < 4294967296 then
        match h : ss[d]? with
        | some s =>
          match decode s r with
          | .ok (p, r2) => .ok (.enum d p, r2)
          | .error e => .error e
        | none => .error .DeserializeBadEnum
      else .error .DeserializeBadEnum
    | .error e => .error e
termination_by s _ => (sizeOf s, 0)
decreasing_by
  all_goals
    first
      | decreasing_tactic
      | (simp_wf
         have hlt := List.sizeOf_lt_of_mem (List.getElem?_mem h)
         apply Prod.Lex.left
         omega)

/-- Decoding of a known count of elements of one shape, in order. -/
def decodeMany : Shape → Nat → List Nat → Except Error (List Value × List Nat)
  | _, 0, input => .ok ([], input)
  | s, n + 1, input =>
    match decode s input with
    | .ok (v, r) =>
      match decodeMany s n r with
      | .ok (vl, r2) => .ok (v :: vl, r2)
      | .error e => .error e
    | .error e => .error e
termination_by s n _ => (sizeOf s, n + 1)

/-- Decoding of one value per shape in a shape list, in order. -/
def decodeTuple : List Shape → List Nat → Except Error (List Value × List Nat)
  | [], input => .ok ([], input)
  | s :: ss, input =>
    match decode s input with
    | .ok (v, r) =>
      match decodeTuple ss r with
      | .ok (vl, r2) => .ok (v :: vl, r2)
      | .error e => .error e
    | .error e => .error e
termination_by ss _ => (sizeOf ss, 0)

/-- Decoding of a known count of key and value pairs, in order. -/
def decodePairs :
    Shape → Shape → Nat → List Nat → Except Error (List (Value × Value) × List Nat)
  | _, _, 0, input => .ok ([], input)
  | ks, vs, n + 1, input =>
    match decode ks input with
    | .ok (k, r) =>
      match decode vs r with
      | .ok (v, r2) =>
        match decodePairs ks vs n r2 with
        | .ok (kvl, r3) => .ok ((k, v) :: kvl, r3)
        | .error e => .error e
      | .error e => .error e
    | .error e => .error e
termination_by ks vs n _ => (sizeOf ks + sizeOf vs, n + 1)
decreasing_by
  all_goals
    first
      | decreasing_tactic
      | (simp_wf
         have hks := shapeSizeOf_pos ks
         have hvs := shapeSizeOf_pos vs
         apply Prod.Lex.left
         omega)

end

/-- Bounded output sink over caller memory, translated from SliceOutput in
src/src/ser/output.rs: a backing buffer and a write index. -/
structure SliceOutput where
  buf : List Nat
  idx : Nat

/-- Translated from SliceOutput.new in src/src/ser/output.rs. -/
def SliceOutput.new (buf : List Nat) : SliceOutput := ⟨buf, 0⟩

/-- Translated from SliceOutput.try_push in src/src/ser/output.rs: fails
when the index reached the buffer length, else stores the byte at the
index and advances it.  The returned pair mirrors the Rust receiver taken
by mutable reference plus the returned Result; on failure the state is the
unchanged receiver. -/
def SliceOutput.try_push (s : SliceOutput) (data : Nat) :
    Except Unit Unit × SliceOutput :=
  if s.buf.length ≤ s.idx then (.error (), s)
  else (.ok (), ⟨s.buf.set s.idx data, s.idx + 1⟩)

/-- Translated from SliceOutput.try_extend in src/src/ser/output.rs: fails
when the data would overrun the buffer, else copies data into the region
starting at the write index and advances the index by the data length. -/
def SliceOutput.try_extend (s : SliceOutput) (data : List Nat) :
    Except Unit Unit × SliceOutput :=
  if s.buf.length < data.length + s.idx then (.error (), s)
  else
    (.ok (),
      ⟨s.buf.take s.idx ++ data ++ s.buf.drop (s.idx + data.length),
       s.idx + data.length⟩)

/-- Translated from SliceOutput.release in src/src/ser/output.rs: splits
the buffer at the write index and resolves to the used front part only;
the unused back part is bound to a discarded variable in the source. -/
def SliceOutput.release (s : SliceOutput) : Except Unit (List Nat) :=
  .ok (s.buf.take s.idx)

/-- Growable output sink, translated from VecOutput in
src/src/ser/output.rs: a wrapper around a growable byte vector. -/
structure VecOutput where
  buf : List Nat

/-- Translated from VecOutput.new in src/src/ser/output.rs. -/
def VecOutput.new : VecOutput := ⟨[]⟩

/-- Translated from VecOutput.try_extend in src/src/ser/output.rs: always
appends and succeeds. -/
def VecOutput.try_extend (s : VecOutput) (data : List Nat) :
    Except Unit Unit × VecOutput :=
  (.ok (), ⟨s.buf ++ data⟩)

/-- Translated from VecOutput.release in src/src/ser/output.rs: resolves
to the whole buffer. -/
def VecOutput.release (s : VecOutput) : Except Unit (List Nat) :=
  .ok s.buf

/-- Entry point to_vec, translated from src/src/ser/mod.rs; the serializer
body that feeds the sink is modelled from the spec (the missing
src/src/ser/serializer.rs): it writes the encoded byte stream of the value
into the sink and a failed release maps to SerializeBufferFull. -/
def to_vec (v : Value) : Except Error (List Nat) :=
  let st := VecOutput.new
  match VecOutput.try_extend st (encode v) with
  | (.error _, _) => .error .SerializeBufferFull
  | (.ok _, st2) =>
    match st2.release with
    | .ok out => .ok out
    | .error _ => .error .SerializeBufferFull

/-- Entry point to_slice, translated from src/src/ser/mod.rs; the
serializer body that feeds the sink is modelled from the spec (the missing
src/src/ser/serializer.rs): it writes the encoded byte stream of the value
into the bounded sink, a capacity failure maps to SerializeBufferFull, and
release resolves to the used front part of the caller buffer. -/
def to_slice (v : Value) (buf : List Nat) : Except Error (List Nat) :=
  let st := SliceOutput.new buf
  match SliceOutput.try_extend st (encode v) with
  | (.error _, _) => .error .SerializeBufferFull
  | (.ok _, st2) =>
    match st2.release with
    | .ok used => .ok used
    | .error _ => .error .SerializeBufferFull

/-- Entry point from_bytes, translated from src/src/de/mod.rs: decode a
value of the expected shape and discard the unused part of the input. -/
def from_bytes (s : Shape) (input : List Nat) : Except Error Value :=
  match decode s input with
  | .ok (v, _) => .ok v
  | .error e => .error e

/-- Entry point take_from_bytes, translated from src/src/de/mod.rs: decode
a value of the expected shape and return the unused part of the input
alongside it. -/
def take_from_bytes (s : Shape) (input : List Nat) :
    Except Error (Value × List Nat) :=
  decode s input

theorem decodeMany_encodeList (s : Shape) :
    ∀ (vs : List Value),
      (∀ v ∈ vs, ∀ rest, hasShape v s = true →
        decode s (encode v ++ rest) = .ok (v, rest)) →
      hasShapeSeq vs s = true →
      ∀ rest, decodeMany s vs.length (encodeList vs ++ rest) = .ok (vs, rest) := by
  intro vs
  induction vs with
  | nil => intro _ _ rest; simp [encodeList, decodeMany]
  | cons v vs ih =>
    intro H hsh rest
    simp [hasShapeSeq] at hsh
    obtain ⟨h1, h2⟩ := hsh
    have hv := H v (by simp) (encodeList vs ++ rest) h1
    have hrest := ih (fun w hw => H w (by simp [hw])) h2 rest
    simp [encodeList, decodeMany, List.append_assoc, hv, hrest]

theorem decodeTuple_encodeList :
    ∀ (vs : List Value) (ss : List Shape),
      (∀ v ∈ vs, ∀ s rest, hasShape v s = true →
        decode s (encode v ++ rest) = .ok (v, rest)) →
      hasShapeTuple vs ss = true →
      ∀ rest, decodeTuple ss (encodeList vs ++ rest) = .ok (vs, rest) := by
  intro vs
  induction vs with
  | nil =>
    intro ss H hsh rest
    cases ss with
    | nil => simp [encodeList, decodeTuple]
    | cons s ss => simp [hasShapeTuple] at hsh
  | cons v vs ih =>
    intro ss H hsh rest
    cases ss with
    | nil => simp [hasShapeTuple] at hsh
    | cons s ss =>
      simp [hasShapeTuple] at hsh
      obtain ⟨h1, h2⟩ := hsh
      have hv := H v (by simp) s (encodeList vs ++ rest) h1
      have hrest := ih ss (fun w hw s2 r2 => H w (by simp [hw]) s2 r2) h2 rest
      simp [encodeList, decodeTuple, List.append_assoc, hv, hrest]

theorem decodePairs_encodePairs (ks vs1 : Shape) :
    ∀ (kvs : List (Value × Value)),
      (∀ kv ∈ kvs, ∀ rest, hasShape kv.1 ks = true →
        decode ks (encode kv.1 ++ rest) = .ok (kv.1, rest)) →
      (∀ kv ∈ kvs, ∀ rest, hasShape kv.2 vs1 = true →
        decode vs1 (encode kv.2 ++ rest) = .ok (kv.2, rest)) →
      hasShapePairs kvs ks vs1 = true →
      ∀ rest, decodePairs ks vs1 kvs.length (encodePairs kvs ++ rest) = .ok (kvs, rest) := by
  intro kvs
  induction kvs with
  | nil => intro _ _ _ rest; simp [encodePairs, decodePairs]
  | cons kv kvs ih =>
    obtain ⟨k, v⟩ := kv
    intro H1 H2 hsh rest
    simp [hasShapePairs] at hsh
    obtain ⟨⟨h1, h2⟩, h3⟩ := hsh
    have hk := H1 (k, v) (by simp) (encode v ++ (encodePairs kvs ++ rest)) h1
    have hv := H2 (k, v) (by simp) (encodePairs kvs ++ rest) h2
    have hrest := ih (fun w hw => H1 w (by simp [hw]))
      (fun w hw => H2 w (by simp [hw])) h3 rest
    simp [encodePairs, decodePairs, List.append_assoc, hk, hv, hrest]

theorem decode_encode_bound :
    ∀ (N : Nat) (v : Value) (s : Shape) (rest : List Nat), sizeOf v ≤ N →
      hasShape v s = true → decode s (encode v ++ rest) = .ok (v, rest) := by
  intro N
  induction N with
  | zero =>
    intro v s rest hv _
    have := valueSizeOf_pos v
    omega
  | succ N ih =>
    intro v s rest hv hs
    cases v with
    | unit =>
      cases s <;> simp [hasShape] at hs
      simp [encode, decode]
    | bool b =>
      cases s <;> simp [hasShape] at hs
      cases b <;> simp [encode, decode]
    | u8 n =>
      cases s <;> simp [hasShape] at hs
      simp [encode, decode]
    | u16 n =>
      cases s <;> simp [hasShape] at hs
      have h2 := takeN_append (uleBytes 2 n) rest
      rw [uleBytes_length] at h2
      simp [encode, decode, h2, leVal_uleBytes 2 n (by norm_num; omega)]
    | u32 n =>
      cases s <;> simp [hasShape] at hs
      have h2 := takeN_append (uleBytes 4 n) rest
      rw [uleBytes_length] at h2
      simp [encode, decode, h2, leVal_uleBytes 4 n (by norm_num; omega)]
    | u64 n =>
      cases s <;> simp [hasShape] at hs
      have h2 := takeN_append (uleBytes 8 n) rest
      rw [uleBytes_length] at h2
      simp [encode, decode, h2, leVal_uleBytes 8 n (by norm_num; omega)]
    | char c =>
      cases s <;> simp [hasShape] at hs
      have hs2 := hs
      simp [validChar] at hs2
      have h2 := takeN_append (uleBytes 4 c) rest
      rw [uleBytes_length] at h2
      simp [encode, decode, h2, leVal_uleBytes 4 c (by norm_num; omega), hs]
    | str bs =>
      cases s <;> simp [hasShape] at hs
      obtain ⟨⟨hlen, hbytes⟩, hutf⟩ := hs
      have hv1 := takeVarint_encode bs.length (bs ++ rest) (by norm_num; omega)
      have h2 := takeN_append bs rest
      simp [encode, decode, List.append_assoc, hv1, h2, hutf]
    | bytes bs =>
      cases s <;> simp [hasShape] at hs
      obtain ⟨hlen, hbytes⟩ := hs
      have hv1 := takeVarint_encode bs.length (bs ++ rest) (by norm_num; omega)
      have h2 := takeN_append bs rest
      simp [encode, decode, List.append_assoc, hv1, h2]
    | option o =>
      cases o with
      | none =>
        cases s <;> simp [hasShape] at hs
        simp [encode, decode]
      | some v =>
        cases s <;> simp [hasShape] at hs
        rename_i s1
        have hsz : sizeOf v ≤ N := by
          have h1 : sizeOf (Value.option (some v)) = 2 + sizeOf v := by
            simp_arith
          omega
        have hrec := ih v s1 rest hsz hs
        simp [encode, decode, hrec]
    | seq vs =>
      cases s <;> simp [hasShape] at hs
      rename_i s1
      obtain ⟨hlen, hseq⟩ := hs
      have hv1 := takeVarint_encode vs.length (encodeList vs ++ rest) (by norm_num; omega)
      have hrec : decodeMany s1 vs.length (encodeList vs ++ rest) = .ok (vs, rest) := by
        apply decodeMany_encodeList s1 vs _ hseq
        intro v hvmem rest2 hvs
        apply ih v s1 rest2 _ hvs
        have hm := List.sizeOf_lt_of_mem hvmem
        have h1 : sizeOf (Value.seq vs) = 1 + sizeOf vs := by simp_arith
        omega
      simp [encode, decode, List.append_assoc, hv1, hrec]
    | tuple vs =>
      cases s <;> simp [hasShape] at hs
      rename_i ss
      have hrec : decodeTuple ss (encodeList vs ++ rest) = .ok (vs, rest) := by
        apply decodeTuple_encodeList vs ss _ hs
        intro v hvmem s2 rest2 hvs
        apply ih v s2 rest2 _ hvs
        have hm := List.sizeOf_lt_of_mem hvmem
        have h1 : sizeOf (Value.tuple vs) = 1 + sizeOf vs := by simp_arith
        omega
      simp [encode, decode, hrec]
    | map kvs =>
      cases s <;> simp [hasShape] at hs
      rename_i ks vs1
      obtain ⟨hlen, hpairs⟩ := hs
      have hv1 := takeVarint_encode kvs.length (encodePairs kvs ++ rest) (by norm_num; omega)
      have hrec : decodePairs ks vs1 kvs.length (encodePairs kvs ++ rest) = .ok (kvs, rest) := by
        apply decodePairs_encodePairs ks vs1 kvs _ _ hpairs
        · intro kv hmem rest2 hks
          apply ih kv.1 ks rest2 _ hks
          have hm := List.sizeOf_lt_of_mem hmem
          have h1 : sizeOf (Value.map kvs) = 1 + sizeOf kvs := by simp_arith
          have h3 : sizeOf kv = 1 + sizeOf kv.1 + sizeOf kv.2 := by
            cases kv
            simp_arith
          have h4 := valueSizeOf_pos kv.2
          omega
        · intro kv hmem rest2 hvs
          apply ih kv.2 vs1 rest2 _ hvs
          have hm := List.sizeOf_lt_of_mem hmem
          have h1 : sizeOf (Value.map kvs) = 1 + sizeOf kvs := by simp_arith
          have h3 : sizeOf kv = 1 + sizeOf kv.1 + sizeOf kv.2 := by
            cases kv
            simp_arith
          have h4 := valueSizeOf_pos kv.1
          omega
      simp [encode, decode, List.append_assoc, hv1, hrec]
    | enum i p =>
      cases s <;> simp [hasShape] at hs
      rename_i ss
      obtain ⟨hi, hmatch⟩ := hs
      cases hgetl : ss[i]? with
      | none => rw [hgetl] at hmatch; simp at hmatch
      | some s1 =>
        rw [hgetl] at hmatch
        have hv1 := takeVarint_encode i (encode p ++ rest) (by norm_num; omega)
        have hsz : sizeOf p ≤ N := by
          have h1 : sizeOf (Value.enum i p) = 1 + sizeOf i + sizeOf p := by
            simp_arith
          omega
        have hrec := ih p s1 rest hsz hmatch
        simp only [encode, List.cons_append, List.append_assoc, decode, hv1, hi,
          if_true]
        split
        · rename_i s2 heq
          rw [hgetl] at heq
          injection heq with heq2
          subst heq2
          simp [hrec]
        · rename_i heq
          rw [hgetl] at heq
          simp at heq

theorem decode_encode (v : Value) (s : Shape) (rest : List Nat)
    (hs : hasShape v s = true) :
    decode s (encode v ++ rest) = .ok (v, rest) :=
  decode_encode_bound (sizeOf v) v s rest (Nat.le_refl _) hs

theorem to_vec_eq (v : Value) : to_vec v = .ok (encode v) := by
  simp [to_vec, VecOutput.new, VecOutput.try_extend, VecOutput.release]

theorem to_slice_spec (v : Value) (buf : List Nat) :
    to_slice v buf =
      if buf.length < (encode v).length then .error .SerializeBufferFull
      else .ok (encode v) := by
  by_cases h : buf.length < (encode v).length
  · rw [if_pos h]
    simp [to_slice, SliceOutput.new, SliceOutput.try_extend, h]
  · rw [if_neg h]
    simp [to_slice, SliceOutput.new, SliceOutput.try_extend, SliceOutput.release, h,
      List.take_left]

/-- Claim C1: for every value of a supported shape, serializing with
to_vec and then deserializing the resulting bytes with from_bytes
reproduces a value equal to the original. -/
theorem c1_to_vec_from_bytes_roundtrip (v : Value) (s : Shape)
    (hs : hasShape v s = true) :
    (to_vec v).bind (from_bytes s) = .ok v := by
  rw [to_vec_eq]
  show from_bytes s (encode v) = .ok v
  have h := decode_encode v s [] hs
  rw [List.append_nil] at h
  simp [from_bytes, h]

/-- Witness for claim C1 at a concrete tuple value of a concrete shape. -/
theorem c1_witness :
    hasShape (Value.tuple [Value.u16 42439, Value.str [104, 105, 33]])
        (Shape.tuple [Shape.u16, Shape.str]) = true ∧
      (to_vec (Value.tuple [Value.u16 42439, Value.str [104, 105, 33]])).bind
          (from_bytes (Shape.tuple [Shape.u16, Shape.str])) =
        .ok (Value.tuple [Value.u16 42439, Value.str [104, 105, 33]]) := by
  have hsh : hasShape (Value.tuple [Value.u16 42439, Value.str [104, 105, 33]])
      (Shape.tuple [Shape.u16, Shape.str]) = true := by
    simp [hasShape, hasShapeTuple, allBytes]
    decide
  exact ⟨hsh, c1_to_vec_from_bytes_roundtrip _ _ hsh⟩

/-- Claim C2: take_from_bytes on one encoded value followed by arbitrary
extra bytes returns the value and a remainder equal to the extra bytes. -/
theorem c2_take_from_bytes_remainder (v : Value) (s : Shape) (extra : List Nat)
    (hs : hasShape v s = true) :
    (to_vec v).bind (fun enc => take_from_bytes s (enc ++ extra)) =
      .ok (v, extra) := by
  rw [to_vec_eq]
  show take_from_bytes s (encode v ++ extra) = .ok (v, extra)
  exact decode_encode v s extra hs

/-- Witness for claim C2 at a concrete value and concrete trailing bytes. -/
theorem c2_witness :
    hasShape (Value.u32 3450704914) Shape.u32 = true ∧
      (to_vec (Value.u32 3450704914)).bind
          (fun enc => take_from_bytes Shape.u32 (enc ++ [9, 9, 9])) =
        .ok (Value.u32 3450704914, [9, 9, 9]) := by
  have hsh : hasShape (Value.u32 3450704914) Shape.u32 = true := by
    simp [hasShape]
  exact ⟨hsh, c2_take_from_bytes_remainder _ _ [9, 9, 9] hsh⟩

/-- Claim C7: from_bytes on one encoded value followed by arbitrary extra
bytes returns the value, silently discarding the trailing bytes. -/
theorem c7_from_bytes_discards_trailing (v : Value) (s : Shape)
    (extra : List Nat) (hs : hasShape v s = true) :
    (to_vec v).bind (fun enc => from_bytes s (enc ++ extra)) = .ok v := by
  rw [to_vec_eq]
  show from_bytes s (encode v ++ extra) = .ok v
  simp [from_bytes, decode_encode v s extra hs]

/-- Witness for claim C7 at a concrete value and concrete trailing bytes. -/
theorem c7_witness :
    hasShape (Value.bool true) Shape.bool = true ∧
      (to_vec (Value.bool true)).bind
          (fun enc => from_bytes Shape.bool (enc ++ [42])) =
        .ok (Value.bool true) := by
  have hsh : hasShape (Value.bool true) Shape.bool = true := by
    simp [hasShape]
  exact ⟨hsh, c7_from_bytes_discards_trailing _ _ [42] hsh⟩

/-- Claim C3: encoding into a fixed buffer strictly smaller than the
encoding of the value fails with SerializeBufferFull; the model is total,
so no panic is possible, and no successful truncated result is returned. -/
theorem c3_to_slice_buffer_full (v : Value) (buf : List Nat)
    (h : buf.length < (encode v).length) :
    to_slice v buf = .error .SerializeBufferFull := by
  rw [to_slice_spec, if_pos h]

/-- Witness for claim C3: a 4-byte integer does not fit an empty buffer. -/
theorem c3_witness :
    List.length ([] : List Nat) < (encode (Value.u32 5)).length ∧
      to_slice (Value.u32 5) [] = .error .SerializeBufferFull := by
  have h : List.length ([] : List Nat) < (encode (Value.u32 5)).length := by
    simp [encode, uleBytes]
  exact ⟨h, c3_to_slice_buffer_full _ _ h⟩

/-- Claim C4: u16 values are encoded little-endian in exactly two bytes;
encoding 0xA5C7 gives the bytes 0xC7 0xA5 and decoding those bytes as a
u16 gives 0xA5C7 back. -/
theorem c4_u16_little_endian :
    to_vec (Value.u16 42439) = .ok [199, 165] ∧
      from_bytes Shape.u16 [199, 165] = .ok (Value.u16 42439) := by
  constructor
  · rw [to_vec_eq]
    simp [encode, uleBytes]
  · simp [from_bytes, decode, takeN, leVal]

/-- Claim C5: in an enum with at most 128 variants the encoded
discriminant is the varint of the zero-based variant index and occupies
exactly one byte; a value of the second variant with payload u64 maximum
encodes as the byte 0x01 followed by eight 0xFF bytes. -/
theorem c5_enum_discriminant_one_byte :
    (∀ (ss : List Shape) (i : Nat) (p : Value),
      hasShape (Value.enum i p) (Shape.enum ss) = true → ss.length ≤ 128 →
      encode (Value.enum i p) = i :: encode p) ∧
      to_vec (Value.enum 1 (Value.u64 18446744073709551615)) =
        .ok [1, 255, 255, 255, 255, 255, 255, 255, 255] := by
  constructor
  · intro ss i p hsh hlen
    simp [hasShape] at hsh
    obtain ⟨hi, hmatch⟩ := hsh
    have hidx : i < ss.length := by
      by_contra hge
      rw [List.getElem?_eq_none (by omega)] at hmatch
      simp at hmatch
    have hsmall : i < 128 := by omega
    simp [encode, varintEncode_lt i hsmall]
  · rw [to_vec_eq]
    rw [show encode (Value.enum 1 (Value.u64 18446744073709551615)) =
      varintEncode 1 ++ encode (Value.u64 18446744073709551615) from by
        simp [encode]]
    rw [varintEncode_lt 1 (by omega)]
    simp [encode, uleBytes]

/-- Witness for claim C5 at a three-variant enum shape. -/
theorem c5_witness :
    hasShape (Value.enum 1 (Value.u64 18446744073709551615))
        (Shape.enum [Shape.u16, Shape.u64, Shape.u8]) = true ∧
      [Shape.u16, Shape.u64, Shape.u8].length ≤ 128 ∧
      encode (Value.enum 1 (Value.u64 18446744073709551615)) =
        1 :: encode (Value.u64 18446744073709551615) := by
  have hsh : hasShape (Value.enum 1 (Value.u64 18446744073709551615))
      (Shape.enum [Shape.u16, Shape.u64, Shape.u8]) = true := by
    simp [hasShape]
  exact ⟨hsh, by simp,
    c5_enum_discriminant_one_byte.1 [Shape.u16, Shape.u64, Shape.u8] 1 _ hsh
      (by simp)⟩

/-- Claim C6 evaluation: to_slice resolves to the used front part of the
caller buffer only; SliceOutput.release discards the unused back part
instead of returning it to the caller, contrary to the documentation
comment on to_slice in src/src/ser/mod.rs. -/
theorem c6_to_slice_returns_only_used_part :
    to_slice (Value.bool true) [0, 0, 0, 0] = .ok [1] ∧
      SliceOutput.release ⟨[1, 0, 0, 0], 1⟩ = .ok [1] := by
  constructor
  · rw [to_slice_spec]
    simp [encode]
  · simp [SliceOutput.release]

/-- Claim C8: whenever the buffer is large enough, to_slice succeeds and
the returned used slice holds exactly the byte sequence that to_vec
produces for the same value. -/
theorem c8_to_slice_matches_to_vec (v : Value) (buf : List Nat)
    (h : (encode v).length ≤ buf.length) :
    to_slice v buf = .ok (encode v) ∧ to_vec v = .ok (encode v) := by
  refine ⟨?_, to_vec_eq v⟩
  rw [to_slice_spec, if_neg (by omega)]

/-- Witness for claim C8 at a concrete value and buffer. -/
theorem c8_witness :
    (encode (Value.u16 42439)).length ≤ List.length [0, 0, 0, 0] ∧
      to_slice (Value.u16 42439) [0, 0, 0, 0] = .ok (encode (Value.u16 42439)) ∧
      to_vec (Value.u16 42439) = .ok (encode (Value.u16 42439)) := by
  have h : (encode (Value.u16 42439)).length ≤ List.length [0, 0, 0, 0] := by
    simp [encode, uleBytes]
  have h2 := c8_to_slice_matches_to_vec (Value.u16 42439) [0, 0, 0, 0] h
  exact ⟨h, h2.1, h2.2⟩

/-- Claim C9: decoding a truncated varint, an input whose every byte has
the continuation bit set so that the input ends before a terminating byte
appears, fails with DeserializeBadVarint, both at the varint reader and
through the deserialization entry point. -/
theorem c9_truncated_varint (input : List Nat) (h : ∀ b ∈ input, 128 ≤ b) :
    takeVarint input = .error .DeserializeBadVarint ∧
      from_bytes (Shape.seq Shape.u8) input = .error .DeserializeBadVarint := by
  have h1 := takeVarintAux_continuation varint_usize_max input h
  have h2 : takeVarint input = .error .DeserializeBadVarint := h1
  refine ⟨h2, ?_⟩
  simp [from_bytes, decode, h2]

/-- Witness for claim C9 on a two-byte all-continuation input. -/
theorem c9_witness :
    (∀ b ∈ [128, 255], 128 ≤ b) ∧
      takeVarint [128, 255] = .error .DeserializeBadVarint ∧
      from_bytes (Shape.seq Shape.u8) [128, 255] =
        .error .DeserializeBadVarint := by
  have h : ∀ b ∈ [128, 255], 128 ≤ b := by decide
  have h2 := c9_truncated_varint [128, 255] h
  exact ⟨h, h2.1, h2.2⟩

/-- Claim C10: SliceOutput.try_extend is all-or-nothing: when the data
would overrun the buffer it fails and the sink state is unchanged, and
otherwise it writes all of the data at the write index and advances the
index by exactly the data length. -/
theorem c10_try_extend_all_or_nothing (st : SliceOutput) (data : List Nat) :
    (st.buf.length < data.length + st.idx →
      st.try_extend data = (.error (), st)) ∧
    (data.length + st.idx ≤ st.buf.length →
      st.try_extend data =
        (.ok (), ⟨st.buf.take st.idx ++ data ++ st.buf.drop (st.idx + data.length),
          st.idx + data.length⟩)) := by
  constructor
  · intro h
    simp [SliceOutput.try_extend, h]
  · intro h
    have hn : ¬ st.buf.length < data.length + st.idx := by omega
    simp [SliceOutput.try_extend, hn]

/-- Witness for claim C10: an overrunning write fails without a state
change and a fitting write lands at the write index. -/
theorem c10_witness :
    SliceOutput.try_extend ⟨[7, 0], 1⟩ [5, 6] = (.error (), ⟨[7, 0], 1⟩) ∧
      SliceOutput.try_extend ⟨[7, 0], 1⟩ [5] = (.ok (), ⟨[7, 5], 2⟩) := by
  constructor
  · exact (c10_try_extend_all_or_nothing ⟨[7, 0], 1⟩ [5, 6]).1 (by simp)
  · have h := (c10_try_extend_all_or_nothing ⟨[7, 0], 1⟩ [5]).2 (by simp)
    rw [h]
    simp

end Pinecone
